import Mathlib

/-!
# Verification of the Veil confidential-balance cryptographic core

This development embeds the ElGamal layer of the Veil repository
(`crypto/src/curve.ts`, the ElGamal module, the nullifier module and
`crypto/src/homomorphic.ts`) and proves / refutes the frozen claims about it.

## The group model

The code works over the Stark curve, a Weierstrass curve whose group of
points is cyclic of prime order `CURVE_ORDER` (the underlying point
arithmetic comes from the external `@scure/starknet` package, specified in
the design document only through its algebraic contract: a prime-order
group with identity, addition, negation, scalar multiplication and affine
coordinates).  A cyclic group of prime order `n` is isomorphic to the
additive group `ZMod n` via `k ↦ k·G`, so we model a `GroupElement` by its
discrete logarithm base `G`: the point `k·G` is the element `k : ZMod n`,
the identity is `0`, the generator `G` is `1`, point addition is `+`,
point negation is `-`, and multiplying the point `p` by the scalar `s`
is `s * p`.

The affine `x`-coordinate of a point satisfies, on any short Weierstrass
curve of odd prime order: `x(P) = x(Q) ↔ P = Q ∨ P = -Q` (each curve `x`
carries exactly the two points `±P`, and no point has `y = 0` because the
group has no 2-torsion).  We model the `x`-coordinate of `k·G` by the
canonical representative `min k.val (n - k.val)` of the pair `{k, -k}`,
which has exactly this equality structure, and model the `y`-coordinate by
`k.val`, which separates `P` from `-P`.  No non-identity point gets the
affine pair `(0, 0)` — mirroring the real curve, where `(0, 0)` is not on
the curve (`b ≠ 0`).
-/

namespace Veil

/-- Order of the Stark curve group (`CURVE_ORDER` in `curve.ts`). -/
def CURVE_ORDER : ℕ :=
  0x0800000000000010ffffffffffffffffb781126dcae7b2321e66a241adc64d2f

instance : NeZero CURVE_ORDER := ⟨by decide⟩

/-- A point of the Stark curve group, modelled by its discrete logarithm
base `G` (see the module docstring).  `ProjectivePoint` in `curve.ts`. -/
abbrev Point := ZMod CURVE_ORDER

/-- The generator `G` (`Point.BASE` in `curve.ts`). -/
def G : Point := 1

/-- The identity / point at infinity (`Point.ZERO` in `curve.ts`). -/
def ZERO : Point := 0

/-- `mod` from `curve.ts`: reduce a scalar modulo the curve order, always
non-negative.  `Int.emod` by a positive modulus is already non-negative,
which is what the two-line TS body computes. -/
def modOrder (n : ℤ) : ℤ := n % (CURVE_ORDER : ℤ)

/-- `scalarMulG` from `curve.ts`: `s * G`, with an explicit zero check
before reducing the scalar. -/
def scalarMulG (scalar : ℤ) : Point :=
  if scalar = 0 then ZERO else ((modOrder scalar : ℤ) : Point)

/-- `scalarMul` from `curve.ts`: `s * P`, with explicit zero checks. -/
def scalarMul (point : Point) (scalar : ℤ) : Point :=
  if scalar = 0 then ZERO
  else if point = ZERO then ZERO
  else ((modOrder scalar : ℤ) : Point) * point

/-- `pointAdd` from `curve.ts`. -/
def pointAdd (p q : Point) : Point := p + q

/-- `pointNeg` from `curve.ts`. -/
def pointNeg (p : Point) : Point := -p

/-- `pointSub` from `curve.ts`: `p.add(q.negate())`. -/
def pointSub (p q : Point) : Point := p + pointNeg q

/-- `isZero` from `curve.ts`: `point.equals(ZERO)`. -/
def isZero (point : Point) : Bool := point = ZERO

/-- `toAffine` from `curve.ts`, in the discrete-log model: the affine pair
of a non-identity point `p`, with the `x`-coordinate represented by the
canonical representative of `{p, -p}` and the `y`-coordinate by `p.val`
(see the module docstring for faithfulness of this encoding). -/
def toAffine (p : Point) : ℕ × ℕ :=
  (min p.val (CURVE_ORDER - p.val), p.val)

-- ────────────────────────────────────────────
--  ElGamal module (`elgamal.ts`)
-- ────────────────────────────────────────────

/-- `Ciphertext` from `elgamal.ts`: `c1 = r·G`, `c2 = m·G + r·PK`. -/
structure Ciphertext where
  c1 : Point
  c2 : Point
deriving DecidableEq

/-- `SerializedCiphertext` from `elgamal.ts`: affine coordinates for
on-chain submission. -/
structure SerializedCiphertext where
  c1_x : ℕ
  c1_y : ℕ
  c2_x : ℕ
  c2_y : ℕ
deriving DecidableEq

/-- The error thrown by `encrypt` for a negative amount
(`"Amount must be non-negative"`). -/
inductive EncryptError
  | invalidAmount
deriving DecidableEq

/-- `encrypt` from `elgamal.ts`.  The source draws the ephemeral
randomness `r` internally from a secure source; following the design
document's ambient-randomness note, the drawn value is passed here as the
explicit argument `r`, and is returned alongside the ciphertext exactly as
in the source. -/
def encrypt (amount : ℤ) (publicKey : Point) (r : ℤ) :
    Except EncryptError (Ciphertext × ℤ) :=
  if amount < 0 then .error .invalidAmount
  else
    let c1 := scalarMulG r
    let mG := if amount = 0 then ZERO else scalarMulG amount
    let rPK := scalarMul publicKey r
    .ok ({ c1 := c1, c2 := pointAdd mG rPK }, r)

/-- `encryptWithRandomness` from `elgamal.ts`: encrypt with a
caller-supplied randomness, no amount check. -/
def encryptWithRandomness (amount : ℤ) (publicKey : Point) (r : ℤ) :
    Ciphertext :=
  let c1 := scalarMulG r
  let mG := if amount = 0 then ZERO else scalarMulG amount
  let rPK := scalarMul publicKey r
  { c1 := c1, c2 := pointAdd mG rPK }

/-- The `while (y < x)` loop of the integer square root helper `sqrt` in
`elgamal.ts`: while `y < x`, set `x := y; y := (x + n/x)/2`; return `x`.
The source loop terminates because `x` strictly decreases; here the
strictly decreasing `x` is bounded by the structural `fuel` argument,
which the caller sets to the initial `x` (so the fuel never runs out:
the `fuel = 0` branch is unreachable). -/
def sqrtLoop (n : ℕ) : ℕ → ℕ → ℕ → ℕ
  | 0, x, _ => x
  | fuel + 1, x, y => if y < x then sqrtLoop n fuel y ((y + n / y) / 2) else x

/-- The integer square root (floor) helper `sqrt` from `elgamal.ts`:
`x = n; y = (x + 1)/2;` then the Newton loop.  (The source throws on
negative input; amounts here are `ℕ`.) -/
def sqrtInt (n : ℕ) : ℕ :=
  if n = 0 then 0 else sqrtLoop n n n ((n + 1) / 2)

/-- `pointKey` from `elgamal.ts`: the `Map` key of a point — a reserved
sentinel (`"O"`, here `0`) for the identity, otherwise the affine
`x`-coordinate.  For a non-identity point the modelled `x`-coordinate
`min val (n - val)` is at least `1`, so the sentinel is disjoint from all
non-identity keys, exactly as the string `"O"` is disjoint from all hex
`x` strings. -/
def pointKey (p : Point) : ℕ :=
  if isZero p then 0 else (toAffine p).1

/-- The baby-step table of `babyStepGiantStep`: the source loops
`j = 0, 1, …` inserting `key(j·G) ↦ j` into a `Map`; we build the same
finite map as an association list (the keys are pairwise distinct in every
use below, so insertion order is immaterial). -/
def babyTable : ℕ → List (ℕ × ℕ)
  | 0 => []
  | j + 1 => (pointKey ((j : ℕ) : Point), j) :: babyTable j

/-- The giant-step loop of `babyStepGiantStep`: at iteration `i` (with
`fuel` iterations remaining, `i + fuel = m`), look the current point up in
the baby-step table and return `i*m + j` on a hit, else subtract `m·G` and
continue. -/
def giantLoop (table : List (ℕ × ℕ)) (mG : Point) (m : ℕ) :
    ℕ → ℕ → Point → Option ℕ
  | 0, _, _ => none
  | fuel + 1, i, gamma =>
    match table.lookup (pointKey gamma) with
    | some j => some (i * m + j)
    | none => giantLoop table mG m fuel (i + 1) (pointSub gamma mG)

/-- `babyStepGiantStep` from `elgamal.ts`: find `m` with `m·G = target`
for `m ∈ [0, maxAmount]`, by baby-step/giant-step. -/
def babyStepGiantStep (target : Point) (maxAmount : ℕ) : Option ℕ :=
  let m := sqrtInt maxAmount + 1
  let table := babyTable m
  let mG := scalarMulG (m : ℤ)
  giantLoop table mG m m 0 target

/-- `decrypt` from `elgamal.ts`: `M = C2 - sk·C1`; return `0` on the
identity fast path, otherwise run the bounded discrete-log search.
`none` models the source's `null` (`NotFound`). -/
def decrypt (ct : Ciphertext) (sk : ℤ) (maxAmount : ℕ) : Option ℕ :=
  let skC1 := scalarMul ct.c1 sk
  let mG := pointSub ct.c2 skC1
  if isZero mG then some 0 else babyStepGiantStep mG maxAmount

/-- `serializeCiphertext` from `elgamal.ts`. -/
def serializeCiphertext (ct : Ciphertext) : SerializedCiphertext :=
  if isZero ct.c1 && isZero ct.c2 then ⟨0, 0, 0, 0⟩
  else
    let c1Aff := if isZero ct.c1 then ((0 : ℕ), (0 : ℕ)) else toAffine ct.c1
    let c2Aff := if isZero ct.c2 then ((0 : ℕ), (0 : ℕ)) else toAffine ct.c2
    ⟨c1Aff.1, c1Aff.2, c2Aff.1, c2Aff.2⟩

/-- `zeroCiphertext` from `elgamal.ts`: the canonical `(Identity, Identity)`
pair. -/
def zeroCiphertext : Ciphertext := { c1 := ZERO, c2 := ZERO }

-- ────────────────────────────────────────────
--  Homomorphic algebra (`homomorphic.ts`)
-- ────────────────────────────────────────────

/-- `addCiphertexts` from `homomorphic.ts`. -/
def addCiphertexts (a b : Ciphertext) : Ciphertext :=
  { c1 := pointAdd a.c1 b.c1, c2 := pointAdd a.c2 b.c2 }

/-- `subtractCiphertexts` from `homomorphic.ts`. -/
def subtractCiphertexts (a b : Ciphertext) : Ciphertext :=
  { c1 := pointSub a.c1 b.c1, c2 := pointSub a.c2 b.c2 }

/-- Result record of `computeTransferBalances`. -/
structure TransferBalancesResult where
  newSenderBalance : Ciphertext
  newRecipientBalance : Ciphertext
  senderSerialized : SerializedCiphertext
  recipientSerialized : SerializedCiphertext
deriving DecidableEq

/-- `computeTransferBalances` from `homomorphic.ts`: encrypt the amount
independently under each key (randomness `rSender`, `rRecipient` passed
explicitly, as in `encrypt` above), subtract from the sender balance, add
to the recipient balance, and serialize both.  The `encrypt` error for a
negative amount propagates, as the thrown exception does in the source. -/
def computeTransferBalances (senderBalance recipientBalance : Ciphertext)
    (amount : ℤ) (senderPK recipientPK : Point) (rSender rRecipient : ℤ) :
    Except EncryptError TransferBalancesResult := do
  let encAmountSender := (← encrypt amount senderPK rSender).1
  let encAmountRecipient := (← encrypt amount recipientPK rRecipient).1
  let newSenderBalance := subtractCiphertexts senderBalance encAmountSender
  let newRecipientBalance := addCiphertexts recipientBalance encAmountRecipient
  return { newSenderBalance := newSenderBalance
           newRecipientBalance := newRecipientBalance
           senderSerialized := serializeCiphertext newSenderBalance
           recipientSerialized := serializeCiphertext newRecipientBalance }

-- ────────────────────────────────────────────
--  Pedersen hash, nullifiers, proof builders
-- ────────────────────────────────────────────

/-- An injective encoding of `ℤ` into `ℕ`, used to model the Pedersen
hash domain. -/
def intCode : ℤ → ℕ
  | .ofNat k => 2 * k
  | .negSucc k => 2 * k + 1

/-- Modelled from the spec: the group adapter's deterministic two-input
one-way compression function `H` (the Stark-native Pedersen hash,
`pedersenBigInt` in the source), provided by the external `@scure/starknet`
package and specified in §6 of the design document only as a deterministic,
collision-free-in-practice two-input compression.  We model it by a
deterministic injective pairing, which realises exactly the contract the
design document relies on (determinism, and distinct inputs giving
distinct outputs). -/
def pedersenBigInt (a b : ℤ) : ℤ :=
  (Nat.pair (intCode a) (intCode b) : ℤ)

/-- `TransferProofData` from `homomorphic.ts`. -/
structure TransferProofData where
  proofHash : ℤ
  nullifier : ℤ
  senderNewBalance : SerializedCiphertext
  recipientNewBalance : SerializedCiphertext
deriving DecidableEq

/-- `WithdrawProofData` from `homomorphic.ts`. -/
structure WithdrawProofData where
  proofHash : ℤ
  nullifier : ℤ
  newBalance : SerializedCiphertext
deriving DecidableEq

/-- The two errors thrown by the proof builders
(`"Amount must be positive"`, `"Insufficient balance"`). -/
inductive ProofError
  | amountNotPositive
  | insufficientBalance
deriving DecidableEq

/-- `generateTransferProof` from `homomorphic.ts`. -/
def generateTransferProof (senderSk senderBalance amount nullifier : ℤ)
    (newSenderBalance newRecipientBalance : Ciphertext) :
    Except ProofError TransferProofData :=
  if amount ≤ 0 then .error .amountNotPositive
  else if senderBalance < amount then .error .insufficientBalance
  else
    let h1 := pedersenBigInt senderSk senderBalance
    let h2 := pedersenBigInt h1 amount
    let proofHash := pedersenBigInt h2 nullifier
    .ok { proofHash := proofHash
          nullifier := nullifier
          senderNewBalance := serializeCiphertext newSenderBalance
          recipientNewBalance := serializeCiphertext newRecipientBalance }

/-- `generateWithdrawProof` from `homomorphic.ts`. -/
def generateWithdrawProof (sk balance amount nullifier : ℤ)
    (newBalance : Ciphertext) :
    Except ProofError WithdrawProofData :=
  if amount ≤ 0 then .error .amountNotPositive
  else if balance < amount then .error .insufficientBalance
  else
    let h1 := pedersenBigInt sk balance
    let h2 := pedersenBigInt h1 amount
    let proofHash := pedersenBigInt h2 nullifier
    .ok { proofHash := proofHash
          nullifier := nullifier
          newBalance := serializeCiphertext newBalance }

/-- `generateNullifier` from the nullifier module: `H(privateKey, nonce)`. -/
def generateNullifier (privateKey nonce : ℤ) : ℤ :=
  pedersenBigInt privateKey nonce

/-- The `domain` argument of `generateDomainNullifier`
(`"transfer" | "withdraw"`). -/
inductive Domain
  | transfer
  | withdraw
deriving DecidableEq

/-- `generateDomainNullifier` from the nullifier module:
`H(H(privateKey, nonce), domainTag)` with tag `1` for transfer and `2`
for withdraw. -/
def generateDomainNullifier (privateKey nonce : ℤ) (domain : Domain) : ℤ :=
  let domainTag : ℤ := match domain with | .transfer => 1 | .withdraw => 2
  let inner := pedersenBigInt privateKey nonce
  pedersenBigInt inner domainTag

-- ────────────────────────────────────────────
--  Basic lemmas: the Newton square root
-- ────────────────────────────────────────────

/-- One integer Newton step from a positive `x` never drops below the floor
square root: `⌊√n⌋ ≤ (x + n/x) / 2`. -/
lemma newton_step_ge (n x : ℕ) (hx : 1 ≤ x) :
    Nat.sqrt n ≤ (x + n / x) / 2 := by
  rw [Nat.le_div_iff_mul_le (by norm_num : 0 < 2)]
  have hs : Nat.sqrt n * Nat.sqrt n ≤ n := Nat.sqrt_le n
  have hq : n < (n / x) * x + x := by
    have h1 := Nat.div_add_mod n x
    have h2 := Nat.mod_lt n (show 0 < x by omega)
    have h3 : x * (n / x) = (n / x) * x := Nat.mul_comm _ _
    omega
  zify at hs hq hx ⊢
  nlinarith [sq_nonneg ((x : ℤ) - (Nat.sqrt n : ℤ)),
             sq_nonneg ((x : ℤ) + (n / x : ℕ) - 2 * (Nat.sqrt n : ℤ))]

/-- The Newton loop never returns a value below the floor square root, as
long as both loop variables start at or above it. -/
lemma sqrtLoop_ge (n : ℕ) (hn : 1 ≤ n) :
    ∀ fuel x y, Nat.sqrt n ≤ x → Nat.sqrt n ≤ y →
      Nat.sqrt n ≤ sqrtLoop n fuel x y := by
  intro fuel
  induction fuel with
  | zero => intro x y hx _; simpa [sqrtLoop] using hx
  | succ fuel ih =>
    intro x y hx hy
    have hs1 : 1 ≤ Nat.sqrt n := Nat.sqrt_pos.mpr hn
    rw [sqrtLoop]
    by_cases hlt : y < x
    · rw [if_pos hlt]
      exact ih y ((y + n / y) / 2) hy (newton_step_ge n y (by omega))
    · rw [if_neg hlt]; exact hx

/-- The source's Newton square root dominates the floor square root; in
particular `n < (sqrtInt n + 1)²`, which is what bounds the BSGS search
range from below. -/
lemma lt_sqrtInt_succ_sq (n : ℕ) :
    n < (sqrtInt n + 1) * (sqrtInt n + 1) := by
  by_cases hn : n = 0
  · subst hn; simp [sqrtInt]
  · have hn1 : 1 ≤ n := by omega
    have hge : Nat.sqrt n ≤ sqrtInt n := by
      unfold sqrtInt
      rw [if_neg hn]
      refine sqrtLoop_ge n hn1 n n ((n + 1) / 2) (Nat.sqrt_le_self n) ?_
      rw [Nat.le_div_iff_mul_le (by norm_num : 0 < 2)]
      have hs : Nat.sqrt n * Nat.sqrt n ≤ n := Nat.sqrt_le n
      nlinarith [sq_nonneg ((Nat.sqrt n : ℤ) - 1)]
    calc n < (Nat.sqrt n + 1) * (Nat.sqrt n + 1) := Nat.lt_succ_sqrt n
    _ ≤ (sqrtInt n + 1) * (sqrtInt n + 1) := by
        exact Nat.mul_le_mul (by omega) (by omega)

-- ────────────────────────────────────────────
--  Basic lemmas: scalar multiplication and casts
-- ────────────────────────────────────────────

/-- `scalarMulG` is plain scalar multiplication of the generator in the
discrete-log model: the explicit zero check and the reduction modulo the
order are both absorbed by the cast `ℤ → ZMod n`. -/
lemma scalarMulG_eq_cast (s : ℤ) : scalarMulG s = (s : Point) := by
  unfold scalarMulG modOrder ZERO
  split
  · rename_i h; subst h; simp
  · exact ZMod.intCast_mod s CURVE_ORDER

/-- `scalarMul` is plain scalar multiplication in the discrete-log model. -/
lemma scalarMul_eq_cast (p : Point) (s : ℤ) : scalarMul p s = (s : Point) * p := by
  unfold scalarMul modOrder ZERO
  split
  · rename_i h; subst h; simp
  · split
    · rename_i h; subst h; simp
    · rw [ZMod.intCast_mod s CURVE_ORDER]

/-- A ciphertext produced by `encryptWithRandomness` in closed form:
`c1 = r·G`, `c2 = m·G + r·PK`. -/
lemma encryptWithRandomness_eq (amount r : ℤ) (pk : Point) :
    encryptWithRandomness amount pk r
      = ⟨(r : Point), (amount : Point) + (r : Point) * pk⟩ := by
  unfold encryptWithRandomness
  rw [scalarMulG_eq_cast, scalarMul_eq_cast]
  unfold pointAdd ZERO
  by_cases h : amount = 0
  · subst h; simp
  · rw [if_neg h, scalarMulG_eq_cast]

/-- `encrypt` succeeds on a non-negative amount and produces exactly the
`encryptWithRandomness` ciphertext together with the randomness used. -/
lemma encrypt_eq_ok (amount r : ℤ) (pk : Point) (h : 0 ≤ amount) :
    encrypt amount pk r = .ok (encryptWithRandomness amount pk r, r) := by
  unfold encrypt encryptWithRandomness
  rw [if_neg (by omega)]

/-- `decrypt` with the `scalarMul`/`pointSub` plumbing rewritten to plain
group algebra on the recovered point `M = c2 - sk·c1`. -/
lemma decrypt_eq (ct : Ciphertext) (sk : ℤ) (maxAmount : ℕ) :
    decrypt ct sk maxAmount =
      if ct.c2 - (sk : Point) * ct.c1 = 0 then some 0
      else babyStepGiantStep (ct.c2 - (sk : Point) * ct.c1) maxAmount := by
  unfold decrypt pointSub pointNeg isZero ZERO
  simp only [scalarMul_eq_cast, ← sub_eq_add_neg, decide_eq_true_eq]

-- ────────────────────────────────────────────
--  Basic lemmas: point keys
-- ────────────────────────────────────────────

/-- A natural number below the order casts to a point with that value. -/
lemma point_val_cast (u : ℕ) (hu : u < CURVE_ORDER) :
    ((u : ℕ) : Point).val = u := ZMod.val_cast_of_lt hu

/-- A natural number below the order casts to the identity iff it is `0`. -/
lemma point_cast_eq_zero_iff (u : ℕ) (hu : u < CURVE_ORDER) :
    ((u : ℕ) : Point) = 0 ↔ u = 0 := by
  rw [← ZMod.val_eq_zero, point_val_cast u hu]

/-- The point key is invariant under negation: the modelled affine
`x`-coordinate of `-P` equals that of `P` (on the curve, `-P` flips only
the `y`-coordinate). -/
lemma pointKey_neg (p : Point) : pointKey (-p) = pointKey p := by
  unfold pointKey isZero toAffine ZERO
  by_cases hp : p = 0
  · subst hp; simp
  · have h1 : (-p : Point) = 0 ↔ p = 0 := neg_eq_zero
    have h2 : (-p : Point).val = CURVE_ORDER - p.val := by
      rw [ZMod.neg_val, if_neg hp]
    have h3 : p.val < CURVE_ORDER := ZMod.val_lt p
    simp only [decide_eq_true_eq, h1, if_neg hp, h2]
    omega

/-- Equality of point keys on casts of naturals below the order: two keys
agree exactly when the values agree or are negatives of each other modulo
the order (the ± x-coordinate collision). -/
lemma pointKey_cast_eq_iff (u v : ℕ) (hu : u < CURVE_ORDER) (hv : v < CURVE_ORDER) :
    pointKey ((u : ℕ) : Point) = pointKey ((v : ℕ) : Point)
      ↔ (u = v ∨ u + v = CURVE_ORDER) := by
  unfold pointKey isZero toAffine ZERO
  simp only [decide_eq_true_eq, point_cast_eq_zero_iff u hu,
    point_cast_eq_zero_iff v hv, point_val_cast u hu, point_val_cast v hv]
  by_cases h0u : u = 0
  · subst h0u
    by_cases h0v : v = 0
    · simp [h0v]
    · rw [if_pos rfl, if_neg h0v]
      omega
  · by_cases h0v : v = 0
    · subst h0v
      rw [if_neg h0u, if_pos rfl]
      omega
    · rw [if_neg h0u, if_neg h0v]
      omega

-- ────────────────────────────────────────────
--  Baby-step table lemmas
-- ────────────────────────────────────────────

/-- Soundness of a baby-table hit: the returned index is below the table
size and its key matches the query. -/
lemma babyTable_lookup_some (s k j : ℕ)
    (h : (babyTable s).lookup k = some j) :
    j < s ∧ pointKey ((j : ℕ) : Point) = k := by
  induction s with
  | zero => simp [babyTable] at h
  | succ s ih =>
    rw [babyTable, List.lookup_cons] at h
    cases hbeq : (k == pointKey ((s : ℕ) : Point)) with
    | true =>
      rw [hbeq] at h
      obtain rfl : s = j := Option.some.inj h
      exact ⟨by omega, (eq_of_beq hbeq).symm⟩
    | false =>
      rw [hbeq] at h
      obtain ⟨h1, h2⟩ := ih h
      exact ⟨by omega, h2⟩

/-- Completeness of the baby table: when its keys are pairwise distinct,
looking up the key of `j·G` returns `j`. -/
lemma babyTable_lookup_of (s j : ℕ) (hj : j < s)
    (hdist : ∀ j1 j2, j1 < s → j2 < s →
      pointKey ((j1 : ℕ) : Point) = pointKey ((j2 : ℕ) : Point) → j1 = j2) :
    (babyTable s).lookup (pointKey ((j : ℕ) : Point)) = some j := by
  induction s with
  | zero => omega
  | succ s ih =>
    rw [babyTable, List.lookup_cons]
    by_cases hj' : j = s
    · subst hj'
      have hbeq : (pointKey ((j : ℕ) : Point) == pointKey ((j : ℕ) : Point))
          = true := by simp
      rw [hbeq]
    · have hbeq : (pointKey ((j : ℕ) : Point) == pointKey ((s : ℕ) : Point))
          = false := by
        simp only [beq_eq_false_iff_ne, ne_eq]
        intro hcontra
        exact hj' (hdist j s (by omega) (by omega) hcontra)
      rw [hbeq]
      exact ih (by omega) (fun j1 j2 h1 h2 => hdist j1 j2 (by omega) (by omega))

/-- A lookup with a key matching no table entry misses. -/
lemma babyTable_lookup_none (s k : ℕ)
    (h : ∀ j, j < s → pointKey ((j : ℕ) : Point) ≠ k) :
    (babyTable s).lookup k = none := by
  induction s with
  | zero => simp [babyTable]
  | succ s ih =>
    rw [babyTable, List.lookup_cons]
    have hbeq : (k == pointKey ((s : ℕ) : Point)) = false := by
      simp only [beq_eq_false_iff_ne, ne_eq]
      intro hcontra
      exact h s (by omega) hcontra.symm
    rw [hbeq]
    exact ih (fun j hj => h j (by omega))

/-- For a table of size `s` with `2s ≤ n`, the baby-step keys are pairwise
distinct: `j₁·G` and `±j₂·G` can only coincide for `j₁ = j₂`. -/
lemma babyTable_keys_distinct (s : ℕ) (hs : s + s ≤ CURVE_ORDER) :
    ∀ j1 j2, j1 < s → j2 < s →
      pointKey ((j1 : ℕ) : Point) = pointKey ((j2 : ℕ) : Point) → j1 = j2 := by
  intro j1 j2 h1 h2 hk
  rcases (pointKey_cast_eq_iff j1 j2 (by omega) (by omega)).mp hk with h | h
  · exact h
  · omega

/-- `babyStepGiantStep` with its `let` bindings expanded and the
giant-step increment rewritten to a plain cast. -/
lemma babyStepGiantStep_eq (target : Point) (maxAmount : ℕ) :
    babyStepGiantStep target maxAmount
      = giantLoop (babyTable (sqrtInt maxAmount + 1))
          ((sqrtInt maxAmount + 1 : ℕ) : Point)
          (sqrtInt maxAmount + 1) (sqrtInt maxAmount + 1) 0 target := by
  simp only [babyStepGiantStep, scalarMulG_eq_cast]
  norm_cast

-- ────────────────────────────────────────────
--  Giant-step loop lemmas
-- ────────────────────────────────────────────

/-- Main BSGS correctness invariant: running the giant-step loop at
iteration `i ≤ t / s` on the point `(t - i·s)·G` returns `t`, for a target
discrete log `1 ≤ t < s²` small against the group order.  Iterations
before `t / s` miss the table (their point has discrete log at least `s`
and is too small to wrap around), and iteration `t / s` hits the entry
`t % s`. -/
lemma giantLoop_correct_aux (s t : ℕ) (hs1 : 1 ≤ s) (hts : t < s * s)
    (hbig : t + s * s < CURVE_ORDER) (ht1 : 1 ≤ t) :
    ∀ fuel i, i + fuel = s → i ≤ t / s →
      giantLoop (babyTable s) ((s : ℕ) : Point) s fuel i
        (((t - i * s : ℕ)) : Point) = some t := by
  have hdiv : t / s < s := (Nat.div_lt_iff_lt_mul (by omega)).mpr hts
  have h2s : s + s ≤ CURVE_ORDER := by nlinarith
  have hdivmul : (t / s) * s ≤ t := by
    have h1 := Nat.div_add_mod t s
    have h2 : s * (t / s) = (t / s) * s := Nat.mul_comm _ _
    omega
  intro fuel
  induction fuel with
  | zero => intro i hi hile; omega
  | succ fuel ih =>
    intro i hi hile
    rw [giantLoop]
    by_cases hcase : i = t / s
    · -- the hit iteration: the current point is (t % s)·G
      subst hcase
      have hmod : t - (t / s) * s = t % s := by
        have h1 := Nat.div_add_mod t s
        have h2 : s * (t / s) = (t / s) * s := Nat.mul_comm _ _
        omega
      rw [hmod, babyTable_lookup_of s (t % s) (Nat.mod_lt t (by omega))
        (babyTable_keys_distinct s h2s)]
      have hgoal : (t / s) * s + t % s = t := by
        have h1 := Nat.div_add_mod t s
        have h2 : s * (t / s) = (t / s) * s := Nat.mul_comm _ _
        omega
      exact congrArg some hgoal
    · -- a miss iteration: i < t / s
      have hsucc : (i + 1) * s ≤ t := by
        calc (i + 1) * s ≤ (t / s) * s := Nat.mul_le_mul_right s (by omega)
        _ ≤ t := hdivmul
      have hsplit : (i + 1) * s = i * s + s := by ring
      have hge : s ≤ t - i * s := by omega
      rw [babyTable_lookup_none s _ ?keysne]
      case keysne =>
        intro j hj hkey
        rcases (pointKey_cast_eq_iff j (t - i * s) (by omega) (by omega)).mp hkey
          with h | h
        · omega
        · have hss : s ≤ s * s := Nat.le_mul_of_pos_left s (by omega)
          omega
      have hcast : pointSub (((t - i * s : ℕ)) : Point) ((s : ℕ) : Point)
          = (((t - (i + 1) * s : ℕ)) : Point) := by
        unfold pointSub pointNeg
        rw [← sub_eq_add_neg, ← Nat.cast_sub hge]
        congr 1
        omega
      rw [hcast]
      exact ih (i + 1) (by omega) (by omega)

/-- BSGS finds any in-range discrete log exactly: for `1 ≤ t ≤ maxAmount`
(with the search window small against the group order),
`babyStepGiantStep (t·G) maxAmount = t`. -/
lemma bsgs_cast_correct (maxAmount t : ℕ)
    (hbig : maxAmount + (sqrtInt maxAmount + 1) * (sqrtInt maxAmount + 1)
      < CURVE_ORDER)
    (ht1 : 1 ≤ t) (ht : t ≤ maxAmount) :
    babyStepGiantStep ((t : ℕ) : Point) maxAmount = some t := by
  rw [babyStepGiantStep_eq]
  have h0 := giantLoop_correct_aux (sqrtInt maxAmount + 1) t (by omega)
    (lt_of_le_of_lt ht (lt_sqrtInt_succ_sq maxAmount)) (by omega) ht1
    (sqrtInt maxAmount + 1) 0 (by omega) (Nat.zero_le _)
  simpa using h0

/-- The x-coordinate collision: BSGS on `-(d·G)` for `1 ≤ d < step`
returns `d` at the very first giant-step iteration, because the point key
of `-(d·G)` equals the key of the baby-step entry `d·G`. -/
lemma bsgs_neg_small (maxAmount d : ℕ)
    (hbig : maxAmount + (sqrtInt maxAmount + 1) * (sqrtInt maxAmount + 1)
      < CURVE_ORDER)
    (hd1 : 1 ≤ d) (hd : d < sqrtInt maxAmount + 1) :
    babyStepGiantStep (-((d : ℕ) : Point)) maxAmount = some d := by
  rw [babyStepGiantStep_eq]
  have h2s : (sqrtInt maxAmount + 1) + (sqrtInt maxAmount + 1) ≤ CURVE_ORDER := by
    nlinarith
  rw [giantLoop, pointKey_neg,
    babyTable_lookup_of _ d hd (babyTable_keys_distinct _ h2s)]
  simp

/-- The miss invariant for negated targets: the giant-step loop started on
`-(d + i·s)·G` with `s ≤ d` never hits the baby table — neither `±j`
can equal `-(d + i·s)` modulo the order within the bounds — so the loop
exhausts its fuel and misses. -/
lemma giantLoop_neg_none_aux (s d : ℕ) (hs1 : 1 ≤ s) (hsd : s ≤ d)
    (hbig : d + s * s < CURVE_ORDER) :
    ∀ fuel i, i + fuel = s →
      giantLoop (babyTable s) ((s : ℕ) : Point) s fuel i
        (-(((d + i * s : ℕ)) : Point)) = none := by
  have h2s : s + s ≤ CURVE_ORDER := by nlinarith
  intro fuel
  induction fuel with
  | zero => intro i hi; rw [giantLoop]
  | succ fuel ih =>
    intro i hi
    have hile : (i + 1) * s ≤ s * s := Nat.mul_le_mul_right s (by omega)
    have hsplit : (i + 1) * s = i * s + s := by ring
    rw [giantLoop, pointKey_neg]
    rw [babyTable_lookup_none s _ ?keysne]
    case keysne =>
      intro j hj hkey
      rcases (pointKey_cast_eq_iff j (d + i * s) (by omega) (by omega)).mp hkey
        with h | h
      · omega
      · omega
    have hcast : pointSub (-(((d + i * s : ℕ)) : Point)) ((s : ℕ) : Point)
        = -(((d + (i + 1) * s : ℕ)) : Point) := by
      unfold pointSub pointNeg
      have : ((d + (i + 1) * s : ℕ) : Point)
          = ((d + i * s : ℕ) : Point) + ((s : ℕ) : Point) := by
        rw [← Nat.cast_add]
        congr 1
        omega
      rw [this]
      ring
    rw [hcast]
    exact ih (i + 1) (by omega)

/-- BSGS on `-(d·G)` misses entirely once `step ≤ d ≤ maxAmount`. -/
lemma bsgs_neg_large (maxAmount d : ℕ)
    (hbig : maxAmount + (sqrtInt maxAmount + 1) * (sqrtInt maxAmount + 1)
      < CURVE_ORDER)
    (hds : sqrtInt maxAmount + 1 ≤ d) (hd : d ≤ maxAmount) :
    babyStepGiantStep (-((d : ℕ) : Point)) maxAmount = none := by
  rw [babyStepGiantStep_eq]
  have h0 := giantLoop_neg_none_aux (sqrtInt maxAmount + 1) d (by omega) hds
    (by omega) (sqrtInt maxAmount + 1) 0 (by omega)
  simpa using h0

/-- Any value the giant-step loop returns is below `s²`: it has the form
`i·s + j` with `i, j < s`. -/
lemma giantLoop_some_lt (s : ℕ) (mG : Point) :
    ∀ fuel i gamma v, i + fuel ≤ s →
      giantLoop (babyTable s) mG s fuel i gamma = some v →
      v < s * s := by
  intro fuel
  induction fuel with
  | zero =>
    intro i gamma v hi h
    rw [giantLoop] at h
    exact absurd h (by simp)
  | succ fuel ih =>
    intro i gamma v hi h
    rw [giantLoop] at h
    rcases hl : (babyTable s).lookup (pointKey gamma) with _ | j
    · rw [hl] at h
      exact ih (i + 1) _ v (by omega) h
    · rw [hl] at h
      obtain ⟨hj, _⟩ := babyTable_lookup_some s _ j hl
      have hv : v = i * s + j := by simpa using h.symm
      have hile : (i + 1) * s ≤ s * s := Nat.mul_le_mul_right s (by omega)
      have hsplit : (i + 1) * s = i * s + s := by ring
      omega

/-- Any non-`none` BSGS result is below `step² = (⌊√maxAmount⌋ + 1)²`. -/
lemma bsgs_some_lt (maxAmount v : ℕ) (target : Point)
    (h : babyStepGiantStep target maxAmount = some v) :
    v < (sqrtInt maxAmount + 1) * (sqrtInt maxAmount + 1) := by
  rw [babyStepGiantStep_eq] at h
  exact giantLoop_some_lt (sqrtInt maxAmount + 1) _ (sqrtInt maxAmount + 1)
    0 target v (by omega) h

-- ────────────────────────────────────────────
--  Decrypt-level lemmas
-- ────────────────────────────────────────────

/-- The point `M = c2 - sk·c1` recovered by `decrypt` before the
discrete-log search. -/
def Mpoint (ct : Ciphertext) (sk : ℤ) : Point :=
  ct.c2 - (sk : Point) * ct.c1

/-- The`pointSub`/`scalarMul` plumbing of `decrypt` computes `Mpoint`. -/
lemma pointSub_scalarMul_eq_Mpoint (ct : Ciphertext) (sk : ℤ) :
    pointSub ct.c2 (scalarMul ct.c1 sk) = Mpoint ct sk := by
  simp [Mpoint, pointSub, pointNeg, scalarMul_eq_cast, sub_eq_add_neg]

/-- `decrypt` in terms of `Mpoint`. -/
lemma decrypt_eq_Mpoint (ct : Ciphertext) (sk : ℤ) (maxAmount : ℕ) :
    decrypt ct sk maxAmount =
      if Mpoint ct sk = 0 then some 0
      else babyStepGiantStep (Mpoint ct sk) maxAmount := decrypt_eq ct sk maxAmount

/-- `Mpoint` of an honest encryption under the matching key is `m·G`. -/
lemma Mpoint_encW (a r sk : ℤ) (pk : Point) (hpk : pk = scalarMulG sk) :
    Mpoint (encryptWithRandomness a pk r) sk = (a : Point) := by
  subst hpk
  rw [scalarMulG_eq_cast, encryptWithRandomness_eq]
  unfold Mpoint
  ring

/-- `Mpoint` is additive in the ciphertext. -/
lemma Mpoint_add (u v : Ciphertext) (sk : ℤ) :
    Mpoint (addCiphertexts u v) sk = Mpoint u sk + Mpoint v sk := by
  unfold Mpoint addCiphertexts pointAdd
  ring

/-- `Mpoint` respects ciphertext subtraction. -/
lemma Mpoint_sub (u v : Ciphertext) (sk : ℤ) :
    Mpoint (subtractCiphertexts u v) sk = Mpoint u sk - Mpoint v sk := by
  unfold Mpoint subtractCiphertexts pointSub pointNeg
  ring

/-- Decryption when `M = t·G` with `t` in the search range: the identity
fast path returns `0` for `t = 0`, and BSGS returns `t` otherwise. -/
lemma decrypt_of_M_cast (ct : Ciphertext) (sk : ℤ) (t maxAmount : ℕ)
    (hbig : maxAmount + (sqrtInt maxAmount + 1) * (sqrtInt maxAmount + 1)
      < CURVE_ORDER)
    (hM : Mpoint ct sk = ((t : ℕ) : Point))
    (ht : t ≤ maxAmount) :
    decrypt ct sk maxAmount = some t := by
  have hmaxlt : maxAmount < CURVE_ORDER := by
    have := Nat.le_add_right maxAmount
      ((sqrtInt maxAmount + 1) * (sqrtInt maxAmount + 1))
    omega
  rw [decrypt_eq_Mpoint, hM]
  by_cases h0 : t = 0
  · subst h0; rw [if_pos (by simp)]
  · rw [if_neg (by rw [point_cast_eq_zero_iff t (by omega)]; exact h0)]
    exact bsgs_cast_correct maxAmount t hbig (by omega) ht

/-- Decryption when `M = -(d·G)` for `1 ≤ d ≤ maxAmount`: the search
returns `d` itself when `d` is below the giant step (the x-coordinate
collision) and `NotFound` otherwise. -/
lemma decrypt_of_M_neg_cast (ct : Ciphertext) (sk : ℤ) (d maxAmount : ℕ)
    (hbig : maxAmount + (sqrtInt maxAmount + 1) * (sqrtInt maxAmount + 1)
      < CURVE_ORDER)
    (hM : Mpoint ct sk = -((d : ℕ) : Point))
    (hd1 : 1 ≤ d) (hd : d ≤ maxAmount) :
    decrypt ct sk maxAmount
      = if d < sqrtInt maxAmount + 1 then some d else none := by
  have hmaxlt : maxAmount < CURVE_ORDER := by
    have := Nat.le_add_right maxAmount
      ((sqrtInt maxAmount + 1) * (sqrtInt maxAmount + 1))
    omega
  rw [decrypt_eq_Mpoint, hM]
  have hne : -((d : ℕ) : Point) ≠ 0 := by
    simp only [ne_eq, neg_eq_zero, point_cast_eq_zero_iff d (by omega)]
    omega
  rw [if_neg hne]
  by_cases hcase : d < sqrtInt maxAmount + 1
  · rw [if_pos hcase]
    exact bsgs_neg_small maxAmount d hbig hd1 hcase
  · rw [if_neg hcase]
    exact bsgs_neg_large maxAmount d hbig (by omega) hd

/-- `computeTransferBalances` on a non-negative amount: both fresh
encryptions succeed and the result is the record of the two homomorphic
updates and their serializations. -/
lemma computeTransferBalances_ok (sB rB : Ciphertext) (amount : ℤ)
    (h : 0 ≤ amount) (pkS pkR : Point) (rS rR : ℤ) :
    computeTransferBalances sB rB amount pkS pkR rS rR = .ok
      { newSenderBalance :=
          subtractCiphertexts sB (encryptWithRandomness amount pkS rS)
        newRecipientBalance :=
          addCiphertexts rB (encryptWithRandomness amount pkR rR)
        senderSerialized := serializeCiphertext
          (subtractCiphertexts sB (encryptWithRandomness amount pkS rS))
        recipientSerialized := serializeCiphertext
          (addCiphertexts rB (encryptWithRandomness amount pkR rR)) } := by
  unfold computeTransferBalances
  rw [encrypt_eq_ok _ _ _ h, encrypt_eq_ok _ _ _ h]
  rfl

/-- Injectivity of the integer encoding behind the modelled hash. -/
lemma intCode_inj {a b : ℤ} (h : intCode a = intCode b) : a = b := by
  cases a with
  | ofNat k =>
    cases b with
    | ofNat l =>
      simp only [intCode] at h
      have hkl : k = l := by omega
      rw [hkl]
    | negSucc l =>
      simp only [intCode] at h
      exact absurd h (by omega)
  | negSucc k =>
    cases b with
    | ofNat l =>
      simp only [intCode] at h
      exact absurd h (by omega)
    | negSucc l =>
      simp only [intCode] at h
      have hkl : k = l := by omega
      rw [hkl]

/-- The modelled compression function is injective — the exact property
the design document's domain-separation argument rests on. -/
lemma pedersenBigInt_inj {a b c d : ℤ}
    (h : pedersenBigInt a b = pedersenBigInt c d) : a = c ∧ b = d := by
  unfold pedersenBigInt at h
  have h2 : Nat.pair (intCode a) (intCode b)
      = Nat.pair (intCode c) (intCode d) := by exact_mod_cast h
  rw [Nat.pair_eq_pair] at h2
  exact ⟨intCode_inj h2.1, intCode_inj h2.2⟩

-- ────────────────────────────────────────────
--  Claim theorems
-- ────────────────────────────────────────────

/-- **C1.** For every keypair `(sk, pk)` with `pk = sk·G` and
`sk ∈ [1, n-1]`, every amount `0 ≤ a ≤ maxAmount`, and every randomness
value the encryption draws, `encrypt` succeeds and
`decrypt(encrypt(a, pk).ct, sk, maxAmount) = a`; in particular for `a = 0`
the recovered point `M = c2 - sk·c1` is the identity, so decryption takes
the identity fast path without running the discrete-log search. -/
theorem decrypt_encrypt_roundtrip (sk r : ℤ) (pk : Point) (a maxAmount : ℕ)
    (hpk : pk = scalarMulG sk)
    (hsk1 : 1 ≤ sk) (hsk2 : sk ≤ (CURVE_ORDER : ℤ) - 1)
    (hr1 : 1 ≤ r) (hr2 : r ≤ (CURVE_ORDER : ℤ) - 1)
    (ha : a ≤ maxAmount)
    (hbig : maxAmount + (sqrtInt maxAmount + 1) * (sqrtInt maxAmount + 1)
      < CURVE_ORDER) :
    encrypt (a : ℤ) pk r = .ok (encryptWithRandomness (a : ℤ) pk r, r) ∧
    decrypt (encryptWithRandomness (a : ℤ) pk r) sk maxAmount = some a ∧
    (a = 0 → isZero (pointSub (encryptWithRandomness (a : ℤ) pk r).c2
      (scalarMul (encryptWithRandomness (a : ℤ) pk r).c1 sk)) = true) := by
  have hM : Mpoint (encryptWithRandomness (a : ℤ) pk r) sk
      = ((a : ℕ) : Point) := by
    rw [Mpoint_encW (a : ℤ) r sk pk hpk]
    push_cast
    rfl
  refine ⟨encrypt_eq_ok _ _ _ (by positivity), ?_, ?_⟩
  · exact decrypt_of_M_cast _ sk a maxAmount hbig hM ha
  · intro ha0
    subst ha0
    rw [pointSub_scalarMul_eq_Mpoint, hM]
    simp [isZero, ZERO]

/-- **C1 witness.** A concrete instance: `sk = 5`, randomness `7`,
amount `10`, bound `20000`. -/
theorem decrypt_encrypt_roundtrip_witness :
    (1 : ℤ) ≤ 5 ∧ (5 : ℤ) ≤ (CURVE_ORDER : ℤ) - 1 ∧
    (1 : ℤ) ≤ 7 ∧ (7 : ℤ) ≤ (CURVE_ORDER : ℤ) - 1 ∧
    (10 : ℕ) ≤ 20000 ∧
    20000 + (sqrtInt 20000 + 1) * (sqrtInt 20000 + 1) < CURVE_ORDER ∧
    encrypt ((10 : ℕ) : ℤ) (scalarMulG 5) 7
      = .ok (encryptWithRandomness ((10 : ℕ) : ℤ) (scalarMulG 5) 7, 7) ∧
    decrypt (encryptWithRandomness ((10 : ℕ) : ℤ) (scalarMulG 5) 7) 5 20000
      = some 10 :=
  ⟨by norm_num, by decide, by norm_num, by decide, by norm_num, by decide,
    (decrypt_encrypt_roundtrip 5 7 (scalarMulG 5) 10 20000 rfl (by norm_num)
      (by decide) (by norm_num) (by decide) (by norm_num) (by decide)).1,
    (decrypt_encrypt_roundtrip 5 7 (scalarMulG 5) 10 20000 rfl (by norm_num)
      (by decide) (by norm_num) (by decide) (by norm_num) (by decide)).2.1⟩

/-- **C2.** For ciphertexts encrypting `x` and `y` under the same public
key `pk = sk·G`, regardless of each ciphertext's own randomness,
`addCiphertexts` decrypts to `x + y` whenever `x + y ≤ maxAmount` and
`subtractCiphertexts` decrypts to `x - y` whenever `y ≤ x` and
`x - y ≤ maxAmount`. -/
theorem add_sub_ciphertexts_decrypt (sk r1 r2 : ℤ) (pk : Point)
    (x y maxAmount : ℕ)
    (hpk : pk = scalarMulG sk)
    (hsk1 : 1 ≤ sk) (hsk2 : sk ≤ (CURVE_ORDER : ℤ) - 1)
    (hbig : maxAmount + (sqrtInt maxAmount + 1) * (sqrtInt maxAmount + 1)
      < CURVE_ORDER) :
    (x + y ≤ maxAmount →
      decrypt (addCiphertexts (encryptWithRandomness (x : ℤ) pk r1)
        (encryptWithRandomness (y : ℤ) pk r2)) sk maxAmount = some (x + y)) ∧
    (y ≤ x → x - y ≤ maxAmount →
      decrypt (subtractCiphertexts (encryptWithRandomness (x : ℤ) pk r1)
        (encryptWithRandomness (y : ℤ) pk r2)) sk maxAmount
        = some (x - y)) := by
  constructor
  · intro hxy
    apply decrypt_of_M_cast _ sk (x + y) maxAmount hbig ?_ hxy
    rw [Mpoint_add, Mpoint_encW _ _ _ _ hpk, Mpoint_encW _ _ _ _ hpk]
    push_cast
    ring
  · intro hyx hxy
    apply decrypt_of_M_cast _ sk (x - y) maxAmount hbig ?_ hxy
    rw [Mpoint_sub, Mpoint_encW _ _ _ _ hpk, Mpoint_encW _ _ _ _ hpk]
    push_cast [hyx]
    ring

/-- **C2 witness.** `x = 4`, `y = 3` under `sk = 5`, bound `50`:
the sum decrypts to `7` and the difference to `1`. -/
theorem add_sub_ciphertexts_decrypt_witness :
    ((4 : ℕ) + 3 ≤ 50) ∧ ((3 : ℕ) ≤ 4) ∧ ((4 : ℕ) - 3 ≤ 50) ∧
    decrypt (addCiphertexts (encryptWithRandomness ((4 : ℕ) : ℤ) (scalarMulG 5) 2)
      (encryptWithRandomness ((3 : ℕ) : ℤ) (scalarMulG 5) 9)) 5 50
      = some (4 + 3) ∧
    decrypt (subtractCiphertexts
      (encryptWithRandomness ((4 : ℕ) : ℤ) (scalarMulG 5) 2)
      (encryptWithRandomness ((3 : ℕ) : ℤ) (scalarMulG 5) 9)) 5 50
      = some (4 - 3) :=
  ⟨by norm_num, by norm_num, by norm_num,
    (add_sub_ciphertexts_decrypt 5 2 9 (scalarMulG 5) 4 3 50 rfl (by norm_num)
      (by decide) (by decide)).1 (by norm_num),
    (add_sub_ciphertexts_decrypt 5 2 9 (scalarMulG 5) 4 3 50 rfl (by norm_num)
      (by decide) (by decide)).2 (by norm_num) (by norm_num)⟩

/-- **C3 counterexample.** The claim's hypotheses (`0 ≤ b_s - a` and
`b_r + a ≤ maxAmount`) are not enough: with `maxAmount = 2`, sender
balance `5`, transfer amount `1` (keys `sk_S = 1`, `sk_R = 2`), both
hypotheses hold, yet the new sender balance decrypts to `NotFound`
(`none`), not to `b_s - a = 4` — the sender-side plaintext `4` exceeds
`maxAmount` and falls outside the BSGS window. -/
theorem computeTransferBalances_missing_bound_cex :
    ((1 : Point) = scalarMulG 1) ∧ ((2 : Point) = scalarMulG 2) ∧
    ((1 : ℕ) ≤ 5) ∧ ((0 + 1 : ℕ) ≤ 2) ∧
    (Except.toOption (computeTransferBalances
        (encryptWithRandomness ((5 : ℕ) : ℤ) 1 3)
        (encryptWithRandomness ((0 : ℕ) : ℤ) 2 4)
        ((1 : ℕ) : ℤ) 1 2 5 6)).map
      (fun R => decrypt R.newSenderBalance 1 2) = some none ∧
    some (none : Option ℕ) ≠ some (some ((5 : ℕ) - 1)) :=
  ⟨by decide, by decide, by norm_num, by norm_num, by decide, by decide⟩

/-- **C3 (amended).** With the additional bound `b_s - a ≤ maxAmount` that
the counterexample shows necessary: `computeTransferBalances` encrypts the
amount twice independently (once under each key), its result fields are
exactly the two homomorphic updates with their serializations, the new
sender balance decrypts under the sender's key to `b_s - a`, and the new
recipient balance decrypts under the recipient's key to `b_r + a`. -/
theorem computeTransferBalances_correct
    (skS skR rS0 rR0 rS rR : ℤ) (pkS pkR : Point) (bS bR a maxAmount : ℕ)
    (hpkS : pkS = scalarMulG skS) (hpkR : pkR = scalarMulG skR)
    (haS : a ≤ bS) (hSmax : bS - a ≤ maxAmount) (hRmax : bR + a ≤ maxAmount)
    (hbig : maxAmount + (sqrtInt maxAmount + 1) * (sqrtInt maxAmount + 1)
      < CURVE_ORDER) :
    computeTransferBalances (encryptWithRandomness (bS : ℤ) pkS rS0)
        (encryptWithRandomness (bR : ℤ) pkR rR0) (a : ℤ) pkS pkR rS rR
      = .ok { newSenderBalance :=
                subtractCiphertexts (encryptWithRandomness (bS : ℤ) pkS rS0)
                  (encryptWithRandomness (a : ℤ) pkS rS)
              newRecipientBalance :=
                addCiphertexts (encryptWithRandomness (bR : ℤ) pkR rR0)
                  (encryptWithRandomness (a : ℤ) pkR rR)
              senderSerialized := serializeCiphertext
                (subtractCiphertexts (encryptWithRandomness (bS : ℤ) pkS rS0)
                  (encryptWithRandomness (a : ℤ) pkS rS))
              recipientSerialized := serializeCiphertext
                (addCiphertexts (encryptWithRandomness (bR : ℤ) pkR rR0)
                  (encryptWithRandomness (a : ℤ) pkR rR)) } ∧
    decrypt (subtractCiphertexts (encryptWithRandomness (bS : ℤ) pkS rS0)
      (encryptWithRandomness (a : ℤ) pkS rS)) skS maxAmount
      = some (bS - a) ∧
    decrypt (addCiphertexts (encryptWithRandomness (bR : ℤ) pkR rR0)
      (encryptWithRandomness (a : ℤ) pkR rR)) skR maxAmount
      = some (bR + a) := by
  refine ⟨computeTransferBalances_ok _ _ _ (by positivity) _ _ _ _, ?_, ?_⟩
  · apply decrypt_of_M_cast _ skS (bS - a) maxAmount hbig ?_ hSmax
    rw [Mpoint_sub, Mpoint_encW _ _ _ _ hpkS, Mpoint_encW _ _ _ _ hpkS]
    push_cast [haS]
    ring
  · apply decrypt_of_M_cast _ skR (bR + a) maxAmount hbig ?_ hRmax
    rw [Mpoint_add, Mpoint_encW _ _ _ _ hpkR, Mpoint_encW _ _ _ _ hpkR]
    push_cast
    ring

/-- **C3 witness.** The design document's end-to-end numbers: Alice
(sk 11) holds 1000, Bob (sk 13) holds 0, transfer 300 with bound 1000:
the sender side decrypts to 700 and the recipient side to 300. -/
theorem computeTransferBalances_correct_witness :
    ((300 : ℕ) ≤ 1000) ∧ ((1000 : ℕ) - 300 ≤ 1000) ∧ ((0 : ℕ) + 300 ≤ 1000) ∧
    decrypt (subtractCiphertexts
      (encryptWithRandomness ((1000 : ℕ) : ℤ) (scalarMulG 11) 3)
      (encryptWithRandomness ((300 : ℕ) : ℤ) (scalarMulG 11) 5)) 11 1000
      = some (1000 - 300) ∧
    decrypt (addCiphertexts
      (encryptWithRandomness ((0 : ℕ) : ℤ) (scalarMulG 13) 4)
      (encryptWithRandomness ((300 : ℕ) : ℤ) (scalarMulG 13) 6)) 13 1000
      = some (0 + 300) :=
  ⟨by norm_num, by norm_num, by norm_num,
    (computeTransferBalances_correct 11 13 3 4 5 6 (scalarMulG 11)
      (scalarMulG 13) 1000 0 300 1000 rfl rfl (by norm_num) (by norm_num)
      (by norm_num) (by decide)).2.1,
    (computeTransferBalances_correct 11 13 3 4 5 6 (scalarMulG 11)
      (scalarMulG 13) 1000 0 300 1000 rfl rfl (by norm_num) (by norm_num)
      (by norm_num) (by decide)).2.2⟩

/-- **C4 counterexample.** `M = 3·G` with `maxAmount = 2`: no `m ≤ 2` has
`m·G = M`, yet `decrypt` returns `some 3` rather than `NotFound`, and the
result `3` exceeds `maxAmount` — refuting both the `NotFound` conjunct and
the "every non-null result is at most maxAmount" conjunct. -/
theorem decrypt_out_of_range_cex :
    (∀ m : ℕ, m ≤ 2 →
      scalarMulG ((m : ℕ) : ℤ)
        ≠ pointSub (encryptWithRandomness ((3 : ℕ) : ℤ) (scalarMulG 1) 5).c2
            (scalarMul (encryptWithRandomness ((3 : ℕ) : ℤ)
              (scalarMulG 1) 5).c1 1)) ∧
    decrypt (encryptWithRandomness ((3 : ℕ) : ℤ) (scalarMulG 1) 5) 1 2
      = some 3 ∧
    ¬ ((3 : ℕ) ≤ 2) :=
  ⟨by decide, by decide, by norm_num⟩

/-- **C4 (amended).** With `M = c2 - sk·c1`: if `M` is the identity,
`decrypt` returns `0`; if some `m ≤ maxAmount` satisfies `m·G = M`,
`decrypt` returns that `m` (the unique, hence smallest, such value); and
every non-`none` result is below `step² = (⌊√maxAmount⌋ + 1)²` — but when
no `m ≤ maxAmount` matches, the result need not be `NotFound` and may
exceed `maxAmount`, as the counterexample shows. -/
theorem decrypt_bsgs_characterization (ct : Ciphertext) (sk : ℤ)
    (maxAmount : ℕ) (hmax1 : 1 ≤ maxAmount)
    (hbig : maxAmount + (sqrtInt maxAmount + 1) * (sqrtInt maxAmount + 1)
      < CURVE_ORDER) :
    (isZero (pointSub ct.c2 (scalarMul ct.c1 sk)) = true →
      decrypt ct sk maxAmount = some 0) ∧
    (∀ m : ℕ, m ≤ maxAmount →
      scalarMulG ((m : ℕ) : ℤ) = pointSub ct.c2 (scalarMul ct.c1 sk) →
      decrypt ct sk maxAmount = some m) ∧
    (∀ v : ℕ, decrypt ct sk maxAmount = some v →
      v < (sqrtInt maxAmount + 1) * (sqrtInt maxAmount + 1)) := by
  refine ⟨?_, ?_, ?_⟩
  · intro h0
    rw [pointSub_scalarMul_eq_Mpoint] at h0
    rw [decrypt_eq_Mpoint, if_pos (by simpa [isZero, ZERO] using h0)]
  · intro m hm hM
    rw [pointSub_scalarMul_eq_Mpoint] at hM
    refine decrypt_of_M_cast ct sk m maxAmount hbig ?_ hm
    rw [← hM, scalarMulG_eq_cast]
    push_cast
    rfl
  · intro v hv
    rw [decrypt_eq_Mpoint] at hv
    by_cases h0 : Mpoint ct sk = 0
    · rw [if_pos h0] at hv
      obtain rfl : (0 : ℕ) = v := Option.some.inj hv
      nlinarith [sqrtInt 0]
    · rw [if_neg h0] at hv
      exact bsgs_some_lt maxAmount v _ hv

/-- **C4 witness.** `M = 17·G` under `sk = 3` with bound `20`: decrypt
returns `17`, and the bound conjunct applies to it. -/
theorem decrypt_bsgs_characterization_witness :
    (1 : ℕ) ≤ 20 ∧
    20 + (sqrtInt 20 + 1) * (sqrtInt 20 + 1) < CURVE_ORDER ∧
    ((17 : ℕ) ≤ 20) ∧
    decrypt (encryptWithRandomness ((17 : ℕ) : ℤ) (scalarMulG 3) 9) 3 20
      = some 17 :=
  ⟨by norm_num, by decide, by norm_num,
    (decrypt_bsgs_characterization
      (encryptWithRandomness ((17 : ℕ) : ℤ) (scalarMulG 3) 9) 3 20
      (by norm_num) (by decide)).2.1 17 (by norm_num) (by decide)⟩

/-- **C5 counterexample.** `Enc(0) - Enc(1)` under the same key (`sk = 1`)
with `maxAmount = 9`: the claim says the bounded search fails
(`NotFound`), but `decrypt` returns `some 1` — the x-coordinate-only BSGS
table key matches `-(1·G)` against the baby-step entry `1·G`. -/
theorem subtract_negative_not_notfound_cex :
    ((1 : Point) = scalarMulG 1) ∧ ((0 : ℕ) < 1) ∧ ((1 : ℕ) ≤ 9) ∧
    decrypt (subtractCiphertexts (encryptWithRandomness ((0 : ℕ) : ℤ) 1 1)
      (encryptWithRandomness ((1 : ℕ) : ℤ) 1 2)) 1 9 = some 1 ∧
    decrypt (subtractCiphertexts (encryptWithRandomness ((0 : ℕ) : ℤ) 1 1)
      (encryptWithRandomness ((1 : ℕ) : ℤ) 1 2)) 1 9 ≠ none :=
  ⟨by decide, by norm_num, by norm_num, by decide, by decide⟩

/-- **C5 (amended).** Subtracting `Enc(b)` from `Enc(a)` with `a < b`
under the same key gives a logically negative plaintext `-(b - a)`;
decrypting it returns `NotFound` exactly when the deficit `b - a` reaches
the giant step `⌊√maxAmount⌋ + 1`, and otherwise returns the deficit
`b - a` itself via the x-coordinate collision of `-(b-a)·G` with the
baby-step table. -/
theorem subtract_negative_decrypt (sk r1 r2 : ℤ) (pk : Point)
    (a b maxAmount : ℕ)
    (hpk : pk = scalarMulG sk)
    (hsk1 : 1 ≤ sk) (hsk2 : sk ≤ (CURVE_ORDER : ℤ) - 1)
    (hab : a < b) (hb : b ≤ maxAmount)
    (hbig : maxAmount + (sqrtInt maxAmount + 1) * (sqrtInt maxAmount + 1)
      < CURVE_ORDER) :
    decrypt (subtractCiphertexts (encryptWithRandomness (a : ℤ) pk r1)
      (encryptWithRandomness (b : ℤ) pk r2)) sk maxAmount
      = if b - a < sqrtInt maxAmount + 1 then some (b - a) else none := by
  apply decrypt_of_M_neg_cast _ sk (b - a) maxAmount hbig ?_ (by omega)
    (by omega)
  rw [Mpoint_sub, Mpoint_encW _ _ _ _ hpk, Mpoint_encW _ _ _ _ hpk]
  push_cast [le_of_lt hab]
  ring

/-- **C5 witness.** `a = 2`, `b = 9`, bound `9`: the deficit `7` reaches
the giant step `4`, so the search misses and decrypt returns `none`. -/
theorem subtract_negative_decrypt_witness :
    ((2 : ℕ) < 9) ∧ ((9 : ℕ) ≤ 9) ∧
    decrypt (subtractCiphertexts (encryptWithRandomness ((2 : ℕ) : ℤ)
        (scalarMulG 1) 1)
      (encryptWithRandomness ((9 : ℕ) : ℤ) (scalarMulG 1) 2)) 1 9 = none := by
  refine ⟨by norm_num, by norm_num, ?_⟩
  have h := subtract_negative_decrypt 1 1 2 (scalarMulG 1) 2 9 9 rfl
    (by norm_num) (by decide) (by norm_num) (by norm_num) (by decide)
  have hs : ¬ ((9 : ℕ) - 2 < sqrtInt 9 + 1) := by decide
  rw [if_neg hs] at h
  exact h

/-- **C6.** The proof builders fail with `AmountNotPositive` exactly for
`amount ≤ 0`, with `InsufficientBalance` exactly for positive amounts
exceeding the asserted balance, and return a payload exactly when
`amount > 0` and `balance ≥ amount`; the `Except` result carries no
payload on failure. -/
theorem proof_builders_error_cases (sk bal amount nullifier : ℤ)
    (ctS ctR ctW : Ciphertext) :
    (generateTransferProof sk bal amount nullifier ctS ctR
        = .error .amountNotPositive ↔ amount ≤ 0) ∧
    (generateTransferProof sk bal amount nullifier ctS ctR
        = .error .insufficientBalance ↔ (0 < amount ∧ bal < amount)) ∧
    ((∃ payload, generateTransferProof sk bal amount nullifier ctS ctR
        = .ok payload) ↔ (0 < amount ∧ amount ≤ bal)) ∧
    (generateWithdrawProof sk bal amount nullifier ctW
        = .error .amountNotPositive ↔ amount ≤ 0) ∧
    (generateWithdrawProof sk bal amount nullifier ctW
        = .error .insufficientBalance ↔ (0 < amount ∧ bal < amount)) ∧
    ((∃ payload, generateWithdrawProof sk bal amount nullifier ctW
        = .ok payload) ↔ (0 < amount ∧ amount ≤ bal)) := by
  unfold generateTransferProof generateWithdrawProof
  split_ifs with h1 h2 <;> refine ⟨?_, ?_, ?_, ?_, ?_, ?_⟩ <;> simp <;> omega

/-- **C7.** On the success path (`amount > 0`, `balance ≥ amount`) both
proof builders return the hash chain
`H(H(H(sk, balance), amount), nullifier)` as `proofHash`, echo the
`nullifier` argument, and serialize the supplied updated ciphertexts
(withdraw omitting the recipient ciphertext). -/
theorem proof_builders_payload (sk bal amount nullifier : ℤ)
    (ctS ctR ctW : Ciphertext) (h1 : 0 < amount) (h2 : amount ≤ bal) :
    generateTransferProof sk bal amount nullifier ctS ctR = .ok
      { proofHash :=
          pedersenBigInt (pedersenBigInt (pedersenBigInt sk bal) amount)
            nullifier
        nullifier := nullifier
        senderNewBalance := serializeCiphertext ctS
        recipientNewBalance := serializeCiphertext ctR } ∧
    generateWithdrawProof sk bal amount nullifier ctW = .ok
      { proofHash :=
          pedersenBigInt (pedersenBigInt (pedersenBigInt sk bal) amount)
            nullifier
        nullifier := nullifier
        newBalance := serializeCiphertext ctW } := by
  constructor
  · unfold generateTransferProof
    rw [if_neg (by omega), if_neg (by omega)]
  · unfold generateWithdrawProof
    rw [if_neg (by omega), if_neg (by omega)]

/-- **C7 witness.** `sk = 7`, balance `100`, amount `30`, nullifier `99`. -/
theorem proof_builders_payload_witness :
    (0 : ℤ) < 30 ∧ (30 : ℤ) ≤ 100 ∧
    generateTransferProof 7 100 30 99 zeroCiphertext zeroCiphertext = .ok
      { proofHash :=
          pedersenBigInt (pedersenBigInt (pedersenBigInt 7 100) 30) 99
        nullifier := 99
        senderNewBalance := serializeCiphertext zeroCiphertext
        recipientNewBalance := serializeCiphertext zeroCiphertext } ∧
    generateWithdrawProof 7 100 30 99 zeroCiphertext = .ok
      { proofHash :=
          pedersenBigInt (pedersenBigInt (pedersenBigInt 7 100) 30) 99
        nullifier := 99
        newBalance := serializeCiphertext zeroCiphertext } :=
  ⟨by norm_num, by norm_num,
    (proof_builders_payload 7 100 30 99 zeroCiphertext zeroCiphertext
      zeroCiphertext (by norm_num) (by norm_num)).1,
    (proof_builders_payload 7 100 30 99 zeroCiphertext zeroCiphertext
      zeroCiphertext (by norm_num) (by norm_num)).2⟩

/-- The modelled affine `x`-coordinate of a non-identity point is nonzero
(no curve point has `x = y = 0`; in the model the canonical representative
of `{p, -p}` is at least 1). -/
lemma toAffine_fst_ne_zero (p : Point) (hp : p ≠ 0) : (toAffine p).1 ≠ 0 := by
  unfold toAffine
  have h1 : p.val ≠ 0 := fun h => hp ((ZMod.val_eq_zero p).mp h)
  have h2 : p.val < CURVE_ORDER := ZMod.val_lt p
  simp only [ne_eq]
  omega

/-- **C8.** `serializeCiphertext` returns the all-zero tuple exactly when
both components are the identity; otherwise each component is
independently mapped to its affine pair, an identity component alone
becoming `(0, 0)`; and `zeroCiphertext` is exactly `(Identity, Identity)`,
so it serializes to `(0,0,0,0)`. -/
theorem serializeCiphertext_characterization (ct : Ciphertext) :
    (serializeCiphertext ct =
      if ct.c1 = ZERO ∧ ct.c2 = ZERO then ⟨0, 0, 0, 0⟩
      else { c1_x := if ct.c1 = ZERO then 0 else (toAffine ct.c1).1
             c1_y := if ct.c1 = ZERO then 0 else (toAffine ct.c1).2
             c2_x := if ct.c2 = ZERO then 0 else (toAffine ct.c2).1
             c2_y := if ct.c2 = ZERO then 0 else (toAffine ct.c2).2 }) ∧
    (serializeCiphertext ct = ⟨0, 0, 0, 0⟩ ↔ ct = zeroCiphertext) ∧
    zeroCiphertext = { c1 := ZERO, c2 := ZERO } ∧
    serializeCiphertext zeroCiphertext = ⟨0, 0, 0, 0⟩ := by
  obtain ⟨c1, c2⟩ := ct
  refine ⟨?_, ?_, rfl, by decide⟩
  · by_cases h1 : c1 = 0 <;> by_cases h2 : c2 = 0 <;>
      simp [serializeCiphertext, isZero, ZERO, h1, h2]
  · by_cases h1 : c1 = 0 <;> by_cases h2 : c2 = 0
    · simp [serializeCiphertext, isZero, ZERO, zeroCiphertext, h1, h2]
    · have hne := toAffine_fst_ne_zero c2 h2
      simp [serializeCiphertext, isZero, ZERO, zeroCiphertext, h1, h2, hne]
    · have hne := toAffine_fst_ne_zero c1 h1
      simp [serializeCiphertext, isZero, ZERO, zeroCiphertext, h1, h2, hne]
    · have hne := toAffine_fst_ne_zero c1 h1
      simp [serializeCiphertext, isZero, ZERO, zeroCiphertext, h1, h2, hne]

/-- **C9.** `generateNullifier` is `H(privateKey, nonce)`,
`generateDomainNullifier` is `H(H(privateKey, nonce), domainTag)` with tag
`1` for transfer and `2` for withdraw; both are deterministic, and for a
fixed `(privateKey, nonce)` the transfer- and withdraw-domain nullifiers
are distinct. -/
theorem nullifier_characterization (privateKey nonce : ℤ) :
    generateNullifier privateKey nonce = pedersenBigInt privateKey nonce ∧
    generateDomainNullifier privateKey nonce .transfer
      = pedersenBigInt (pedersenBigInt privateKey nonce) 1 ∧
    generateDomainNullifier privateKey nonce .withdraw
      = pedersenBigInt (pedersenBigInt privateKey nonce) 2 ∧
    generateDomainNullifier privateKey nonce .transfer
      ≠ generateDomainNullifier privateKey nonce .withdraw ∧
    (∀ sk2 nonce2 : ℤ, privateKey = sk2 → nonce = nonce2 →
      generateNullifier privateKey nonce = generateNullifier sk2 nonce2 ∧
      ∀ d : Domain, generateDomainNullifier privateKey nonce d
        = generateDomainNullifier sk2 nonce2 d) := by
  refine ⟨rfl, rfl, rfl, ?_, ?_⟩
  · intro h
    have h2 := (pedersenBigInt_inj h).2
    norm_num at h2
  · rintro sk2 nonce2 rfl rfl
    exact ⟨rfl, fun _ => rfl⟩

/-- **C9 witness.** Concrete instance at `privateKey = 7`, `nonce = 9`. -/
theorem nullifier_characterization_witness :
    generateNullifier 7 9 = pedersenBigInt 7 9 ∧
    generateDomainNullifier 7 9 .transfer
      ≠ generateDomainNullifier 7 9 .withdraw ∧
    generateNullifier 7 9 = generateNullifier 7 9 :=
  ⟨(nullifier_characterization 7 9).1,
   (nullifier_characterization 7 9).2.2.2.1,
   ((nullifier_characterization 7 9).2.2.2.2 7 9 rfl rfl).1⟩

/-- **C10.** `encryptWithRandomness` is a total function — it performs no
amount check (unlike `encrypt`, which rejects negative amounts) — and with
`r = 0` it returns the deterministic degenerate ciphertext
`c1 = Identity`, `c2 = (amount mod n)·G` (`scalarMulG` reduces its scalar
modulo the order and maps `0` to the identity). -/
theorem encryptWithRandomness_total (amount r : ℤ) (pk : Point) :
    encryptWithRandomness amount pk 0
      = { c1 := ZERO, c2 := scalarMulG amount } ∧
    (amount < 0 → encrypt amount pk r = .error .invalidAmount) := by
  constructor
  · rw [encryptWithRandomness_eq]
    unfold ZERO
    rw [scalarMulG_eq_cast]
    simp
  · intro h
    unfold encrypt
    rw [if_pos h]

/-- **C10 witness.** The negative amount `-5` (rejected by `encrypt`)
still encrypts under `encryptWithRandomness`, and with `r = 0` the result
is the degenerate ciphertext. -/
theorem encryptWithRandomness_total_witness :
    encryptWithRandomness (-5) 7 0 = { c1 := ZERO, c2 := scalarMulG (-5) } ∧
    (-5 : ℤ) < 0 ∧
    encrypt (-5) 7 3 = .error .invalidAmount :=
  ⟨(encryptWithRandomness_total (-5) 3 7).1, by norm_num,
    (encryptWithRandomness_total (-5) 3 7).2 (by norm_num)⟩

end Veil
